import Mathlib

/-!
# Shard splitting in the reedsolomon encoder examples

A shallow embedding of `examples/simple-encoder.go` and
`examples/native-encoder.go`: the aligned buffer allocator `AllocAligned`,
the helper `min`, and the part of `main` that validates the flags, reads the
input and fills `shards2` before the erasure coder is called.

Modelling conventions.

* A Go `[]byte` is a slice header (`Slice`): backing array, offset, length and
  capacity. Backing arrays live in a `Heap`; the bytes seen through a header
  are obtained with `Heap.read`. The nil slice is the header without a backing
  array.
* A Go `[][]byte` is a `List Slice`.
* A Go `int` is an `Int`, and allocation always succeeds: memory and integers
  are unbounded, so the 64-bit wrap-around of `int` is not modelled. Every
  `int` the code computes is a flag, a sum or difference of flags, a length, or
  the size of a buffer that is then allocated.
* Run-time panics (index out of range, slice bounds out of range, negative
  `make` length) are the `error` results of `Except Panic`.
* A `for` loop with a condition is a function recursive on an iteration
  budget; the condition is tested as in the source and an exhausted budget is
  the separate result `Panic.loopBudget`, which the theorems show does not
  occur.
-/

namespace ReedSolomon

/-- One byte. -/
abbrev Byte := UInt8

/-- Abnormal terminations of the modelled code. The first three are panics of
the Go runtime; `loopBudget` is the model running out of iteration budget. -/
inductive Panic where
  | indexOutOfRange
  | sliceBoundsOutOfRange
  | makeLenOutOfRange
  | loopBudget
  deriving DecidableEq, Repr

/-- A Go slice header over bytes. `arr = none` is the nil slice. -/
structure Slice where
  arr : Option Nat
  off : Nat
  len : Nat
  cap : Nat
  deriving DecidableEq, Repr

/-- The nil slice, the zero value of `[]byte`. -/
def Slice.nil : Slice := { arr := none, off := 0, len := 0, cap := 0 }

/-- Backing arrays, addressed by their position. -/
abbrev Heap := List (List Byte)

/-- The bytes `s[0], ..., s[len(s)-1]` seen through a slice header. -/
def Heap.read (h : Heap) (s : Slice) : List Byte :=
  match s.arr with
  | none => []
  | some a => ((h.getD a []).drop s.off).take s.len

/-- The bytes `s[0], ..., s[cap(s)-1]` reachable by re-slicing up to the
capacity. -/
def Heap.readCap (h : Heap) (s : Slice) : List Byte :=
  match s.arr with
  | none => []
  | some a => ((h.getD a []).drop s.off).take s.cap

/-- Overwrite `data.length` bytes of backing array `a` starting at `off`. -/
def Heap.write (h : Heap) (a off : Nat) (data : List Byte) : Heap :=
  h.set a (((h.getD a []).take off ++ data) ++ (h.getD a []).drop (off + data.length))

/-- The builtin `copy(dst, src)`: copies `min(len(dst), len(src))` bytes. -/
def copy (h : Heap) (dst src : Slice) : Heap :=
  match dst.arr with
  | none => h
  | some a => h.write a dst.off ((h.read src).take (Nat.min dst.len src.len))

/-- The builtin `make([]byte, n)`: a fresh zero-filled backing array. -/
def makeBytes (n : Int) (h : Heap) : Except Panic (Slice × Heap) :=
  if n < 0 then .error .makeLenOutOfRange
  else .ok ({ arr := some h.length, off := 0, len := n.toNat, cap := n.toNat },
            h ++ [List.replicate n.toNat 0])

/-- The builtin `make([][]byte, n)`: `n` nil slices. -/
def makeSlices (n : Int) : Except Panic (List Slice) :=
  if n < 0 then .error .makeLenOutOfRange
  else .ok (List.replicate n.toNat Slice.nil)

/-- The full slice expression `s[lo:hi:max]`. -/
def Slice.slice3 (s : Slice) (lo hi mx : Int) : Except Panic Slice :=
  if 0 ≤ lo ∧ lo ≤ hi ∧ hi ≤ mx ∧ mx ≤ s.cap then
    .ok { arr := s.arr, off := s.off + lo.toNat, len := (hi - lo).toNat, cap := (mx - lo).toNat }
  else .error .sliceBoundsOutOfRange

/-- The simple slice expression `s[lo:]`. -/
def Slice.sliceFrom (s : Slice) (lo : Int) : Except Panic Slice :=
  if 0 ≤ lo ∧ lo ≤ s.len then
    .ok { arr := s.arr, off := s.off + lo.toNat, len := s.len - lo.toNat, cap := s.cap - lo.toNat }
  else .error .sliceBoundsOutOfRange

/-- The index expression `xs[i]` on a `[][]byte`, read. -/
def index (xs : List Slice) (i : Int) : Except Panic Slice :=
  if 0 ≤ i ∧ i < xs.length then .ok (xs.getD i.toNat Slice.nil)
  else .error .indexOutOfRange

/-- The assignment `xs[i] = v` on a `[][]byte`. -/
def assign (xs : List Slice) (i : Int) (v : Slice) : Except Panic (List Slice) :=
  if 0 ≤ i ∧ i < xs.length then .ok (xs.set i.toNat v)
  else .error .indexOutOfRange

/-- The slice expression `xs[lo:]` on a `[][]byte`. -/
def restFrom (xs : List Slice) (lo : Int) : Except Panic (List Slice) :=
  if 0 ≤ lo ∧ lo ≤ xs.length then .ok (xs.drop lo.toNat)
  else .error .sliceBoundsOutOfRange

/-- The helper `min` of both example programs. -/
def min (a b : Int) : Int :=
  if a < b then a else b

/-- The loop `for i := range res` of `AllocAligned`; the first argument is the
number of iterations still to run. -/
def allocLoop (each eachAligned : Int) :
    Nat → Int → List Slice → Slice → Except Panic (List Slice)
  | 0, _, res, _ => .ok res
  | n + 1, i, res, total => do
      let v ← total.slice3 0 each eachAligned
      let res ← assign res i v
      let total ← total.sliceFrom eachAligned
      allocLoop each eachAligned n (i + 1) res total

/-- The function `AllocAligned(shards, each)`, identical in both programs. -/
def AllocAligned (shards each : Int) (h : Heap) : Except Panic (List Slice × Heap) := do
  let eachAligned := ((each + 63).tdiv 64) * 64
  let (total, h) ← makeBytes (eachAligned * shards + 63) h
  let res ← makeSlices shards
  let res ← allocLoop each eachAligned res.length 0 res total
  pure (res, h)

/-- The local variables of `main` when the splitting code has run. -/
structure Locals where
  shards2 : List Slice
  actualShardSize : Int
  b : Slice
  i : Int
  padding : List Slice
  heap : Heap
  deriving DecidableEq, Repr

/-- The loop `for ; len(b) >= actualShardSize && i < *dataShards; i++`. -/
def fillLoop (a d : Int) :
    Nat → List Slice → Slice → Int → Except Panic (List Slice × Slice × Int)
  | 0, shards2, b, i =>
      if (b.len : Int) ≥ a ∧ i < d then .error .loopBudget else .ok (shards2, b, i)
  | n + 1, shards2, b, i =>
      if (b.len : Int) ≥ a ∧ i < d then do
        let v ← b.slice3 0 a a
        let shards2 ← assign shards2 i v
        let b ← b.sliceFrom a
        fillLoop a d n shards2 b (i + 1)
      else .ok (shards2, b, i)

/-- The loops `for j := lo; j < hi; j++ { shards2[j] = padding[0];
padding = padding[1:] }`. -/
def assignLoop (hi : Int) :
    Nat → List Slice → List Slice → Int → Except Panic (List Slice × List Slice)
  | 0, shards2, padding, j =>
      if j < hi then .error .loopBudget else .ok (shards2, padding)
  | n + 1, shards2, padding, j =>
      if j < hi then do
        let v ← index padding 0
        let shards2 ← assign shards2 j v
        let padding ← restFrom padding 1
        assignLoop hi n shards2 padding (j + 1)
      else .ok (shards2, padding)

/-- The statement `if i < *dataShards { if len(b) > 0 { copy(padding[0], b) } }`. -/
def copyLeftover (padding : List Slice) (b : Slice) (i d : Int) (h : Heap) :
    Except Panic Heap :=
  if i < d then
    if (b.len : Int) > 0 then do
      let dst ← index padding 0
      pure (copy h dst b)
    else .ok h
  else .ok h

/-- The splitting code of `main` (the spec's ShardSplitter): from
`shards2 := make(...)` to the end of the second assignment loop, run on the
file contents `input`. The input buffer is backing array 0; `b` starts with
capacity `len(b)` (the code never slices `b` beyond its length, so spare
capacity of the buffer read from the file would not be observed). -/
def splitter (input : List Byte) (d p s : Int) : Except Panic Locals := do
  let heap : Heap := [input]
  let b : Slice := { arr := some 0, off := 0, len := input.length, cap := input.length }
  let shards2 ← makeSlices (d + p)
  let actualShardSize := min b.len s
  let (shards2, b, i) ← fillLoop actualShardSize d d.toNat shards2 b 0
  let (padding, heap) ← AllocAligned (d - i + p) actualShardSize heap
  let heap ← copyLeftover padding b i d heap
  let (shards2, padding) ← assignLoop d (d - i).toNat shards2 padding i
  let (shards2, padding) ← assignLoop (d + p) p.toNat shards2 padding d
  pure { shards2 := shards2, actualShardSize := actualShardSize, b := b, i := i,
         padding := padding, heap := heap }

/-- What `main` prints or asks of the operating system, in order. -/
inductive Event where
  | errNoFilename
  | usage
  | errShardSum
  | opening (fname : String)
  | readFile (fname : String)
  | errRead
  deriving DecidableEq, Repr

/-- How a run of `main` stands when the model stops following it: the process
has exited with a status, the Go runtime has panicked, or control has reached
the call of the erasure coder with the given state. -/
inductive Outcome (σ : Type) where
  | exited (code : Nat)
  | panicked (e : Panic)
  | ready (st : σ)
  deriving DecidableEq, Repr

/-- A run of `main`: the events in order, and the outcome. -/
structure Run (σ : Type) where
  events : List Event
  outcome : Outcome σ
  deriving DecidableEq, Repr

/-- The part of `main` that both programs share, up to the end of the second
assignment loop. `fs` is the file system as seen by `ioutil.ReadFile`
(`none`: the read fails), `args` are the non-flag arguments, and `d`, `p`, `s`
are the flags `-data`, `-par`, `-shardSize`. -/
def mainSplit (fs : String → Option (List Byte)) (args : List String) (d p s : Int) :
    Run Locals :=
  if args.length ≠ 1 then
    { events := [.errNoFilename, .usage], outcome := .exited 1 }
  else if d + p > 256 then
    { events := [.errShardSum], outcome := .exited 1 }
  else
    let fname := args.headD ""
    match fs fname with
    | none => { events := [.opening fname, .readFile fname, .errRead], outcome := .exited 2 }
    | some input =>
      match splitter input d p s with
      | .error e => { events := [.opening fname, .readFile fname], outcome := .panicked e }
      | .ok st => { events := [.opening fname, .readFile fname], outcome := .ready st }

/-- A C pointer into a backing array: array and offset. -/
structure Ptr where
  arr : Nat
  off : Nat
  deriving DecidableEq, Repr

/-- The expression `&shards2[j][0]`: both index expressions are bounds-checked. -/
def addrOfFirst (shards2 : List Slice) (j : Int) : Except Panic Ptr := do
  let sh ← index shards2 j
  if 0 < sh.len then
    match sh.arr with
    | some a => pure { arr := a, off := sh.off }
    | none => .error .indexOutOfRange
  else .error .indexOutOfRange

/-- The loops `for i = 0; i < n; i++ { C.setPointer(ptrs, C.int(i),
&shards2[base+i][0]) }` of the native encoder (pointer casts left out); the
result lists the pointers stored, in order. -/
def pointerLoop (shards2 : List Slice) (base n : Int) :
    Nat → Int → List Ptr → Except Panic (List Ptr)
  | 0, i, ptrs => if i < n then .error .loopBudget else .ok ptrs
  | k + 1, i, ptrs =>
      if i < n then do
        let q ← addrOfFirst shards2 (base + i)
        pointerLoop shards2 base n k (i + 1) (ptrs ++ [q])
      else .ok ptrs

/-- The state of the native encoder when `C.encode` is called: the locals of
the splitting code and the two pointer tables. -/
structure NativeState where
  locals : Locals
  inputs : List Ptr
  outputs : List Ptr
  deriving DecidableEq, Repr

/-- The code of the native encoder between the splitting code and the call of
`C.encode`: the two loops that fill `inputs` and `outputs`. -/
def handOff (st : Locals) (d p : Int) : Except Panic NativeState := do
  let inputs ← pointerLoop st.shards2 0 d d.toNat 0 []
  let outputs ← pointerLoop st.shards2 d p p.toNat 0 []
  pure { locals := st, inputs := inputs, outputs := outputs }

namespace SimpleEncoder

/-- The function `main` of `simple-encoder.go`, up to the call of
`reedsolomon.New`. -/
def main (fs : String → Option (List Byte)) (args : List String) (d p s : Int) :
    Run Locals :=
  mainSplit fs args d p s

end SimpleEncoder

namespace NativeEncoder

/-- The function `main` of `native-encoder.go`, up to the call of `C.encode`. -/
def main (fs : String → Option (List Byte)) (args : List String) (d p s : Int) :
    Run NativeState :=
  let r := mainSplit fs args d p s
  match r.outcome with
  | .exited c => { events := r.events, outcome := .exited c }
  | .panicked e => { events := r.events, outcome := .panicked e }
  | .ready st =>
    match handOff st d p with
    | .error e => { events := r.events, outcome := .panicked e }
    | .ok ns => { events := r.events, outcome := .ready ns }

end NativeEncoder

/-! ## Closed forms used in the proofs -/

/-- The header of the `t`-th shard cut directly from the input buffer: the
value of `b[:a:a]` after `t` earlier steps `b = b[a:]`. -/
def dataView (a t : Nat) : Slice :=
  { arr := some 0, off := t * a, len := a, cap := a }

/-- The header of the `t`-th view into backing array `arr` with length `a` and
stride `e`. -/
def alignedView (arr a e t : Nat) : Slice :=
  { arr := some arr, off := t * e, len := a, cap := e }

/-- The shard size rounded up to a multiple of 64, on naturals. -/
def aligned (a : Nat) : Nat := (a + 63) / 64 * 64

/-- The contents of the padding buffer when the splitting code has run with
shard size `a`, `k` shards cut from the input, `d` data shards and `n` views:
the input bytes left over after `k` shards (copied only when `k < d`),
followed by zeros. -/
def paddingArray (input : List Byte) (a k d n : Nat) : List Byte :=
  if k < d then
    input.drop (k * a) ++ List.replicate (aligned a * n + 63 - (input.length - k * a)) 0
  else List.replicate (aligned a * n + 63) 0

/-- The locals of `main` after the splitting code, written out in closed form
for `d` data shards, `p` parity shards, shard size `a` and `k` shards cut
directly from the input. -/
def splitLocals (input : List Byte) (d p a k : Nat) : Locals :=
  { shards2 := (List.range k).map (dataView a) ++
      (List.range (d - k + p)).map (alignedView 1 a (aligned a)),
    actualShardSize := a,
    b := { arr := some 0, off := k * a, len := input.length - k * a,
           cap := input.length - k * a },
    i := k,
    padding := [],
    heap := [input, paddingArray input a k d (d - k + p)] }

/-- The six bytes of `"hello!"`, the input of the worked examples. -/
def hello : List Byte := [104, 101, 108, 108, 111, 33]

/-! ## Lemmas on the primitives -/

theorem assign_at_length (pre post : List Slice) (x v : Slice) (i : Int)
    (hi : i = pre.length) :
    assign (pre ++ x :: post) i v = .ok (pre ++ v :: post) := by
  subst hi
  have h1 : (pre.length : Int) < ((pre ++ x :: post).length : Int) := by
    simp only [List.length_append, List.length_cons]; omega
  simp only [assign, Int.toNat_ofNat]
  rw [if_pos ⟨by omega, h1⟩]
  simp

theorem index_zero_cons (v : Slice) (vs : List Slice) : index (v :: vs) 0 = .ok v := by
  simp [index]

theorem restFrom_one_cons (v : Slice) (vs : List Slice) : restFrom (v :: vs) 1 = .ok vs := by
  simp [restFrom]

theorem slice3_zero (arr : Option Nat) (off len cap a e : Nat) (hae : a ≤ e) (hec : e ≤ cap) :
    Slice.slice3 { arr := arr, off := off, len := len, cap := cap } 0 (a : Int) (e : Int) =
      .ok { arr := arr, off := off, len := a, cap := e } := by
  have hc : (0 : Int) ≤ 0 ∧ (0 : Int) ≤ (a : Int) ∧ (a : Int) ≤ (e : Int) ∧ (e : Int) ≤ (cap : Int) := by
    omega
  simp only [Slice.slice3]
  rw [if_pos hc]
  simp

theorem sliceFrom_nat (arr : Option Nat) (off len cap e : Nat) (hel : e ≤ len) :
    Slice.sliceFrom { arr := arr, off := off, len := len, cap := cap } (e : Int) =
      .ok { arr := arr, off := off + e, len := len - e, cap := cap - e } := by
  have hc : (0 : Int) ≤ (e : Int) ∧ (e : Int) ≤ (len : Int) := by omega
  simp only [Slice.sliceFrom]
  rw [if_pos hc]
  simp

theorem range_succ_map_shift (f : Nat → Slice) (n : Nat) :
    (List.range (n + 1)).map f = f 0 :: (List.range n).map (fun t => f (t + 1)) := by
  rw [List.range_succ_eq_map, List.map_cons, List.map_map]
  rfl

theorem allocLoop_spec (arr a e : Nat) (hae : a ≤ e) :
    ∀ (n : Nat) (pre : List Slice) (off len cap : Nat) (i : Int),
      i = pre.length → n * e ≤ len → len ≤ cap →
      allocLoop (a : Int) (e : Int) n i (pre ++ List.replicate n Slice.nil)
          { arr := some arr, off := off, len := len, cap := cap } =
        .ok (pre ++ (List.range n).map
          (fun t => ({ arr := some arr, off := off + t * e, len := a, cap := e } : Slice))) := by
  intro n
  induction n with
  | zero => intro pre off len cap i _ _ _; simp [allocLoop]
  | succ n ih =>
    intro pre off len cap i hi hlen hcap
    have h1 : e ≤ len := by
      have : (n + 1) * e = n * e + e := by ring
      omega
    have h2 : n * e ≤ len - e := by
      have : (n + 1) * e = n * e + e := by ring
      omega
    rw [List.replicate_succ]
    simp only [allocLoop]
    rw [slice3_zero _ _ _ _ _ _ hae (by omega)]
    simp only [bind, Except.bind]
    rw [assign_at_length _ _ _ _ _ hi]
    simp only [bind, Except.bind]
    rw [sliceFrom_nat _ _ _ _ _ h1]
    simp only [bind, Except.bind]
    have hpre : pre ++ ({ arr := some arr, off := off, len := a, cap := e } : Slice) ::
        List.replicate n Slice.nil =
        (pre ++ [({ arr := some arr, off := off, len := a, cap := e } : Slice)]) ++
          List.replicate n Slice.nil := by simp
    rw [hpre, ih _ (off + e) (len - e) (cap - e) (i + 1) (by simp [hi]) h2 (by omega)]
    rw [range_succ_map_shift]
    simp only [List.append_assoc, List.singleton_append, Nat.zero_mul, Nat.add_zero]
    congr 3
    apply List.map_congr_left
    intro t _
    congr 1
    ring

theorem eachAligned_cast (a : Nat) :
    ((a : Int) + 63).tdiv 64 * 64 = ((aligned a : Nat) : Int) := by
  rw [Int.tdiv_eq_ediv (by omega) (by omega)]
  unfold aligned
  push_cast
  rfl

theorem le_aligned (a : Nat) : a ≤ aligned a := by
  unfold aligned
  omega

theorem AllocAligned_spec (n a : Nat) (h : Heap) :
    AllocAligned (n : Int) (a : Int) h =
      .ok ((List.range n).map (alignedView h.length a (aligned a)),
           h ++ [List.replicate (aligned a * n + 63) 0]) := by
  have hN : ((aligned a : Nat) : Int) * (n : Int) + 63 = ((aligned a * n + 63 : Nat) : Int) := by
    push_cast; rfl
  have hnot : ¬ (((aligned a * n + 63 : Nat) : Int) < 0) := by omega
  have hnot2 : ¬ ((n : Int) < 0) := by omega
  simp only [AllocAligned, eachAligned_cast, hN, makeBytes, makeSlices, if_neg hnot, if_neg hnot2,
    Int.toNat_ofNat, bind, Except.bind, List.length_replicate]
  have hloop := allocLoop_spec h.length a (aligned a) (le_aligned a) n [] 0
    (aligned a * n + 63) (aligned a * n + 63) 0 (by simp)
    (by rw [Nat.mul_comm]; omega) (le_refl _)
  simp only [List.nil_append, Nat.cast_zero] at hloop
  rw [hloop]
  simp only [Nat.zero_add, pure, Except.pure]
  rfl

/-! ## The loops of the splitting code -/

theorem fillLoop_spec (a : Nat) :
    ∀ (n : Nat) (pre : List Slice) (m off len cap : Nat) (i d : Int),
      i = pre.length → d = i + n → n ≤ m → len ≤ cap →
      ∃ k, k ≤ n ∧ k * a ≤ len ∧ (k = n ∨ len - k * a < a) ∧
        fillLoop (a : Int) d n (pre ++ List.replicate m Slice.nil)
            { arr := some 0, off := off, len := len, cap := cap } i =
          .ok ((pre ++ (List.range k).map
                  (fun t => ({ arr := some 0, off := off + t * a, len := a, cap := a } : Slice)))
                 ++ List.replicate (m - k) Slice.nil,
               { arr := some 0, off := off + k * a, len := len - k * a, cap := cap - k * a },
               i + k) := by
  intro n
  induction n with
  | zero =>
    intro pre m off len cap i d hi hd _ _
    refine ⟨0, le_refl _, by omega, Or.inl rfl, ?_⟩
    have hc : ¬ ((len : Int) ≥ (a : Int) ∧ i < d) := by omega
    simp only [fillLoop]
    rw [if_neg hc]
    simp
  | succ n ih =>
    intro pre m off len cap i d hi hd hm hcap
    by_cases hlen : a ≤ len
    · obtain ⟨m1, rfl⟩ : ∃ m1, m = m1 + 1 := ⟨m - 1, by omega⟩
      have hc : (len : Int) ≥ (a : Int) ∧ i < d := by omega
      obtain ⟨k, hk1, hk2, hk3, hk4⟩ := ih
        (pre ++ [({ arr := some 0, off := off, len := a, cap := a } : Slice)]) m1 (off + a)
        (len - a) (cap - a) (i + 1) d (by simp [hi]) (by push_cast at hd ⊢; omega) (by omega)
        (by omega)
      have hmul : (k + 1) * a = k * a + a := by ring
      refine ⟨k + 1, by omega, by omega, by omega, ?_⟩
      rw [List.replicate_succ]
      simp only [fillLoop]
      rw [if_pos hc, slice3_zero _ _ _ _ _ _ (le_refl a) (by omega)]
      simp only [bind, Except.bind]
      rw [assign_at_length _ _ _ _ _ hi]
      simp only [bind, Except.bind]
      rw [sliceFrom_nat _ _ _ _ _ hlen]
      simp only [bind, Except.bind]
      have hpre : pre ++ ({ arr := some 0, off := off, len := a, cap := a } : Slice) ::
          List.replicate m1 Slice.nil =
          (pre ++ [({ arr := some 0, off := off, len := a, cap := a } : Slice)]) ++
            List.replicate m1 Slice.nil := by simp
      rw [hpre, hk4, range_succ_map_shift]
      have e1 : off + a + k * a = off + (k + 1) * a := by ring
      have e2 : len - a - k * a = len - (k + 1) * a := by omega
      have e3 : cap - a - k * a = cap - (k + 1) * a := by omega
      have e4 : m1 + 1 - (k + 1) = m1 - k := by omega
      have e5 : i + 1 + (k : Int) = i + ((k + 1 : Nat) : Int) := by push_cast; ring
      have e6 : (List.range k).map
            (fun t => ({ arr := some 0, off := off + a + t * a, len := a, cap := a } : Slice)) =
          (List.range k).map
            (fun t => ({ arr := some 0, off := off + (t + 1) * a, len := a, cap := a } : Slice)) := by
        apply List.map_congr_left
        intro t _
        congr 1
        ring
      rw [e1, e2, e3, e4, e5, e6]
      simp
    · refine ⟨0, by omega, by omega, Or.inr (by omega), ?_⟩
      have hc : ¬ ((len : Int) ≥ (a : Int) ∧ i < d) := by omega
      simp only [fillLoop]
      rw [if_neg hc]
      simp

theorem assignLoop_spec (hi : Int) :
    ∀ (n : Nat) (pre vs rest : List Slice) (m : Nat) (j : Int),
      j = pre.length → hi = j + n → vs.length = n → n ≤ m →
      assignLoop hi n (pre ++ List.replicate m Slice.nil) (vs ++ rest) j =
        .ok ((pre ++ vs) ++ List.replicate (m - n) Slice.nil, rest) := by
  intro n
  induction n with
  | zero =>
    intro pre vs rest m j _ hhi hvs _
    have hc : ¬ (j < hi) := by omega
    have hvs0 : vs = [] := List.length_eq_zero.mp hvs
    simp only [assignLoop]
    rw [if_neg hc]
    simp [hvs0]
  | succ n ih =>
    intro pre vs rest m j hj hhi hvs hm
    obtain ⟨m1, rfl⟩ : ∃ m1, m = m1 + 1 := ⟨m - 1, by omega⟩
    obtain ⟨v, vs1, rfl⟩ : ∃ v vs1, vs = v :: vs1 := by
      cases vs with
      | nil => simp at hvs
      | cons v vs1 => exact ⟨v, vs1, rfl⟩
    have hc : j < hi := by omega
    rw [List.replicate_succ]
    simp only [assignLoop, List.cons_append]
    rw [if_pos hc, index_zero_cons]
    simp only [bind, Except.bind]
    rw [assign_at_length _ _ _ _ _ hj, restFrom_one_cons]
    simp only [bind, Except.bind]
    have hpre : pre ++ v :: List.replicate m1 Slice.nil =
        (pre ++ [v]) ++ List.replicate m1 Slice.nil := by simp
    rw [hpre, ih (pre ++ [v]) vs1 rest m1 (j + 1) (by simp [hj]) (by push_cast at hhi ⊢; omega)
      (by simpa using hvs) (by omega)]
    have e4 : m1 + 1 - (n + 1) = m1 - n := by omega
    rw [e4]
    simp

theorem min_cast (x y : Nat) : min (x : Int) (y : Int) = ((Min.min x y : Nat) : Int) := by
  unfold min
  split <;> omega

theorem copyLeftover_spec (input zeros : List Byte) (a e k rem cap : Nat) (padding : List Slice)
    (i d : Int) (hrem : k * a + rem = input.length) (hlt : i < d → rem < a)
    (hpad : i < d → ∃ vs, padding = alignedView 1 a e 0 :: vs) :
    copyLeftover padding { arr := some 0, off := k * a, len := rem, cap := cap } i d
        [input, zeros] =
      .ok [input, if i < d then input.drop (k * a) ++ zeros.drop rem else zeros] := by
  unfold copyLeftover
  by_cases hid : i < d
  · obtain ⟨vs, rfl⟩ := hpad hid
    have hr := hlt hid
    rw [if_pos hid, if_pos hid]
    have hdrop : (input.drop (k * a)).length = rem := by
      rw [List.length_drop]; omega
    by_cases h0 : (rem : Int) > 0
    · rw [if_pos h0, index_zero_cons]
      simp only [bind, Except.bind, pure, Except.pure, copy, alignedView, Heap.write, Heap.read]
      have hmin : Nat.min a rem = rem := Nat.min_eq_right (by omega)
      have htake : List.take rem (List.drop (k * a) input) = List.drop (k * a) input := by
        apply List.take_of_length_le; omega
      simp [hmin, htake, hdrop]
    · rw [if_neg h0]
      have hr0 : rem = 0 := by omega
      have hnil : List.drop (k * a) input = [] := by
        apply List.drop_of_length_le; omega
      simp [hr0, hnil]
  · rw [if_neg hid, if_neg hid]

theorem range_map_add (f : Nat → Slice) (m n : Nat) :
    (List.range (m + n)).map f = (List.range m).map f ++ (List.range n).map (fun t => f (m + t)) := by
  rw [List.range_add, List.map_append, List.map_map]
  rfl

/-- The splitting code in closed form, for non-negative flags: it returns, and
its locals are `splitLocals` for the number `k` of shards cut from the input. -/
theorem splitter_spec (input : List Byte) (d p s : Nat) :
    ∃ k : Nat, k ≤ d ∧ k * Min.min input.length s ≤ input.length ∧
      (k = d ∨ input.length - k * Min.min input.length s < Min.min input.length s) ∧
      splitter input (d : Int) (p : Int) (s : Int) =
        .ok (splitLocals input d p (Min.min input.length s) k) := by
  obtain ⟨k, hk1, hk2, hk3, hfill⟩ := fillLoop_spec (Min.min input.length s) d [] (d + p) 0
    input.length input.length 0 (d : Int) (by simp) (by simp) (by omega) (le_refl _)
  refine ⟨k, hk1, hk2, hk3, ?_⟩
  generalize ha : Min.min input.length s = a at *
  have hmk : ¬ ((d : Int) + (p : Int) < 0) := by omega
  have hcnt : (d : Int) - ((0 : Int) + (k : Int)) + (p : Int) = ((d - k + p : Nat) : Int) := by
    omega
  have hsplit : (List.range (d - k + p)).map (alignedView 1 a (aligned a)) =
      (List.range (d - k)).map (alignedView 1 a (aligned a)) ++
        (List.range p).map (fun t => alignedView 1 a (aligned a) (d - k + t)) :=
    range_map_add _ _ _
  have hcopy := copyLeftover_spec input (List.replicate (aligned a * (d - k + p) + 63) 0)
    a (aligned a) k (input.length - k * a) (input.length - k * a)
    ((List.range (d - k + p)).map (alignedView 1 a (aligned a))) ((0 : Int) + (k : Int)) (d : Int)
    (by omega) (by omega)
    (by
      intro hlt
      obtain ⟨n, hn⟩ : ∃ n, d - k + p = n + 1 := ⟨d - k + p - 1, by omega⟩
      rw [hn, range_succ_map_shift]
      exact ⟨_, rfl⟩)
  have hloop1 := assignLoop_spec (d : Int) (d - k) ((List.range k).map (dataView a))
    ((List.range (d - k)).map (alignedView 1 a (aligned a)))
    ((List.range p).map (fun t => alignedView 1 a (aligned a) (d - k + t)))
    (d + p - k) ((0 : Int) + (k : Int)) (by simp) (by omega) (by simp) (by omega)
  have hloop2 := assignLoop_spec ((d : Int) + (p : Int)) p
    ((List.range k).map (dataView a) ++ (List.range (d - k)).map (alignedView 1 a (aligned a)))
    ((List.range p).map (fun t => alignedView 1 a (aligned a) (d - k + t))) [] p (d : Int)
    (by simp; omega) (by omega) (by simp) (le_refl _)
  have hfuel1 : ((d : Int) - ((0 : Int) + (k : Int))).toNat = d - k := by omega
  have hrep : d + p - k - (d - k) = p := by omega
  have hdv : (fun t => ({ arr := some 0, off := t * a, len := a, cap := a } : Slice)) =
      dataView a := rfl
  simp only [List.nil_append, Nat.zero_add, Nat.zero_mul, Nat.sub_zero, Nat.cast_zero,
    List.append_nil, hdv] at hfill hloop1 hloop2
  simp only [splitter, makeSlices, if_neg hmk, bind, Except.bind, min_cast, ha]
  have htn : ((d : Int) + (p : Int)).toNat = d + p := by omega
  rw [htn, Int.toNat_ofNat, hfill]
  simp only []
  rw [hcnt, AllocAligned_spec]
  simp only [List.length_singleton, List.singleton_append]
  rw [hcopy]
  simp only []
  rw [hfuel1, hsplit, hloop1]
  simp only [hrep, Int.toNat_ofNat]
  rw [hloop2]
  simp only [pure, Except.pure, splitLocals, paddingArray, Nat.sub_self, List.replicate_zero,
    List.append_nil, ← hsplit, List.append_assoc, Int.zero_add]
  congr 2
  by_cases hkd : k < d
  · have hkd2 : (k : Int) < (d : Int) := by omega
    rw [if_pos hkd, if_pos hkd2, List.drop_replicate]
  · have hkd2 : ¬ ((k : Int) < (d : Int)) := by omega
    rw [if_neg hkd, if_neg hkd2]

/-! ## Reading the shards of the closed form -/

theorem splitLocals_length (input : List Byte) (d p a k : Nat) (hk : k ≤ d) :
    (splitLocals input d p a k).shards2.length = d + p := by
  simp [splitLocals]
  omega

theorem splitLocals_mem (input : List Byte) (d p a k : Nat) (sh : Slice)
    (hmem : sh ∈ (splitLocals input d p a k).shards2) :
    (∃ t, t < k ∧ sh = dataView a t) ∨
      (∃ t, t < d - k + p ∧ sh = alignedView 1 a (aligned a) t) := by
  simp only [splitLocals, List.mem_append, List.mem_map, List.mem_range] at hmem
  rcases hmem with ⟨t, ht, rfl⟩ | ⟨t, ht, rfl⟩
  · exact Or.inl ⟨t, ht, rfl⟩
  · exact Or.inr ⟨t, ht, rfl⟩

theorem read_dataView (input pad : List Byte) (a t : Nat) :
    Heap.read [input, pad] (dataView a t) = (input.drop (t * a)).take a := by
  simp [Heap.read, dataView]

theorem read_alignedView (input pad : List Byte) (a e t : Nat) :
    Heap.read [input, pad] (alignedView 1 a e t) = (pad.drop (t * e)).take a := by
  simp [Heap.read, alignedView]

theorem mul_succ_le (t n e : Nat) (ht : t < n) : t * e + e ≤ n * e := by
  have h : (t + 1) * e ≤ n * e := Nat.mul_le_mul_right e ht
  have h2 : (t + 1) * e = t * e + e := by ring
  omega

theorem paddingArray_length (input : List Byte) (a k d n : Nat)
    (hlt : k < d → input.length - k * a < a) (hn : k < d → 1 ≤ n) :
    (paddingArray input a k d n).length = aligned a * n + 63 := by
  unfold paddingArray
  by_cases hkd : k < d
  · have h1 := hlt hkd
    have h2 := le_aligned a
    have h3 := mul_succ_le 0 n (aligned a) (hn hkd)
    have h4 : aligned a * n = n * aligned a := Nat.mul_comm _ _
    rw [if_pos hkd]
    simp only [List.length_append, List.length_drop, List.length_replicate]
    omega
  · rw [if_neg hkd]
    simp

theorem mainSplit_accepted (fs : String → Option (List Byte)) (fname : String)
    (input : List Byte) (d p s : Int) (hfs : fs fname = some input) (hdp : d + p ≤ 256) :
    mainSplit fs [fname] d p s =
      { events := [.opening fname, .readFile fname],
        outcome := match splitter input d p s with
          | .error e => .panicked e
          | .ok st => .ready st } := by
  have h1 : ¬ (d + p > 256) := by omega
  simp only [mainSplit, List.length_singleton, ne_eq, not_true_eq_false, if_false, if_neg h1,
    List.headD_cons, hfs]
  cases splitter input d p s <;> rfl

theorem read_shard_length (input : List Byte) (d p a k : Nat) (sh : Slice)
    (hka : k * a ≤ input.length) (hlt : k < d → input.length - k * a < a)
    (hmem : sh ∈ (splitLocals input d p a k).shards2) :
    sh.len = a ∧ ((splitLocals input d p a k).heap.read sh).length = a := by
  rcases splitLocals_mem input d p a k sh hmem with ⟨t, ht, rfl⟩ | ⟨t, ht, rfl⟩
  · refine ⟨rfl, ?_⟩
    have h3 := mul_succ_le t k a ht
    simp only [splitLocals, read_dataView, List.length_take, List.length_drop]
    omega
  · refine ⟨rfl, ?_⟩
    have h3 := mul_succ_le t (d - k + p) (aligned a) ht
    have h4 : aligned a * (d - k + p) = (d - k + p) * aligned a := Nat.mul_comm _ _
    have h5 := le_aligned a
    simp only [splitLocals, read_alignedView, List.length_take, List.length_drop]
    rw [paddingArray_length input a k d (d - k + p) hlt (by omega)]
    omega

theorem ceil_div_64 (s : Nat) : ⌈((s : Int) : ℚ) / 64⌉ = (((s + 63) / 64 : Nat) : Int) := by
  rw [Int.ceil_eq_iff]
  have h1 : 64 * ((s + 63) / 64) ≤ s + 63 := Nat.mul_div_le _ _
  have h2 : s + 63 < 64 * ((s + 63) / 64) + 64 := by omega
  generalize (s + 63) / 64 = q at h1 h2
  have h3 : ((64 * q : Nat) : ℚ) ≤ ((s + 63 : Nat) : ℚ) := by exact_mod_cast h1
  have h4 : ((s : Nat) : ℚ) ≤ ((64 * q : Nat) : ℚ) := by
    have : s ≤ 64 * q := by omega
    exact_mod_cast this
  push_cast at h3 h4 ⊢
  constructor
  · linarith
  · linarith

theorem ceil_aligned (s : Nat) : ⌈((s : Int) : ℚ) / 64⌉ * 64 = ((aligned s : Nat) : Int) := by
  rw [ceil_div_64]
  unfold aligned
  push_cast
  rfl

theorem write_frame (l data : List Byte) (off1 off2 c2 : Nat)
    (hfit : off1 + data.length ≤ l.length)
    (hdis : off1 + data.length ≤ off2 ∨ off2 + c2 ≤ off1) :
    (((l.take off1 ++ data) ++ l.drop (off1 + data.length)).drop off2).take c2 =
      (l.drop off2).take c2 := by
  apply List.ext_getElem?
  intro t
  rw [List.getElem?_take, List.getElem?_take]
  by_cases ht : t < c2
  · rw [if_pos ht, if_pos ht, List.getElem?_drop, List.getElem?_drop, List.getElem?_append,
      List.getElem?_append]
    simp only [List.length_append, List.length_take, List.getElem?_take, List.getElem?_drop]
    have hmin : Min.min off1 l.length = off1 := Nat.min_eq_left (by omega)
    rw [hmin]
    rcases hdis with hd | hd
    · rw [if_neg (by omega)]
      congr 1
      omega
    · rw [if_pos (by omega), if_pos (by omega), if_pos (by omega)]
  · rw [if_neg ht, if_neg ht]

theorem readCap_write_other (h : Heap) (zeros data : List Byte) (v w : Slice)
    (hw : w.arr = some h.length)
    (hfit : v.off + data.length ≤ zeros.length)
    (hdis : v.off + data.length ≤ w.off ∨ w.off + w.cap ≤ v.off) :
    Heap.readCap (Heap.write (h ++ [zeros]) h.length v.off data) w =
      Heap.readCap (h ++ [zeros]) w := by
  have hget : (h ++ [zeros]).getD h.length [] = zeros := by
    rw [List.getD_eq_getElem?_getD, List.getElem?_append_right (le_refl _)]
    simp
  simp only [Heap.readCap, Heap.write, hw, hget]
  rw [List.getD_eq_getElem?_getD, List.getElem?_set_self (by simp)]
  exact write_frame zeros data v.off w.off w.cap hfit hdis

/-- On the empty input the native encoder panics for all flags with `d ≥ 1`,
`p ≥ 0`, `s > 0`, `d + p ≤ 256`: every shard has length 0 and the first
`&shards2[0][0]` is out of range. -/
theorem handOff_fails_on_empty_input (fs : String → Option (List Byte)) (fname : String)
    (d p s : Int) (hfs : fs fname = some []) (hd : 1 ≤ d) (hp : 0 ≤ p) (hs : 0 < s)
    (hdp : d + p ≤ 256) :
    (NativeEncoder.main fs [fname] d p s).outcome = .panicked .indexOutOfRange := by
  lift d to ℕ using (by omega)
  lift p to ℕ using hp
  lift s to ℕ using (by omega)
  obtain ⟨k, hk1, _, hk3, hsp⟩ := splitter_spec [] d p s
  have ha : Min.min ([] : List Byte).length s = 0 := by simp
  rw [ha] at hk3 hsp
  have hk : k = d := by
    rcases hk3 with h | h
    · exact h
    · omega
  subst hk
  obtain ⟨n, rfl⟩ : ∃ n, k = n + 1 := ⟨k - 1, by omega⟩
  have hlt : (0 : Int) < ((n + 1 : Nat) : Int) := by omega
  have hidx : index (splitLocals [] (n + 1) p 0 (n + 1)).shards2 (0 + 0) = .ok (dataView 0 0) := by
    simp only [splitLocals, range_succ_map_shift, List.cons_append, Int.add_zero]
    exact index_zero_cons _ _
  have hho : handOff (splitLocals [] (n + 1) p 0 (n + 1)) ((n + 1 : Nat) : Int) (p : Int) =
      .error .indexOutOfRange := by
    simp only [handOff, Int.toNat_ofNat, pointerLoop]
    rw [if_pos hlt]
    simp only [addrOfFirst, hidx, bind, Except.bind, dataView]
    rfl
  simp only [NativeEncoder.main]
  rw [mainSplit_accepted fs fname [] _ _ _ hfs hdp, hsp]
  simp only [hho]

/-! ## The claims -/

/-- C1: for an input of length `L` and flags with `d ≥ 1`, `p ≥ 0`, `s > 0`,
`d + p ≤ 256`, `main` reaches the erasure coder with exactly `d + p` shards in
`shards2`, each of length `min(L, s)` (as a slice header and as bytes read). -/
theorem C1_shard_count_and_length (fs : String → Option (List Byte)) (fname : String)
    (input : List Byte) (d p s : Int) (hfs : fs fname = some input)
    (hd : 1 ≤ d) (hp : 0 ≤ p) (hs : 0 < s) (hdp : d + p ≤ 256) :
    ∃ st : Locals, (SimpleEncoder.main fs [fname] d p s).outcome = .ready st ∧
      (st.shards2.length : Int) = d + p ∧
      ∀ sh ∈ st.shards2, (sh.len : Int) = Min.min (input.length : Int) s ∧
        ((st.heap.read sh).length : Int) = Min.min (input.length : Int) s := by
  lift d to ℕ using (by omega)
  lift p to ℕ using hp
  lift s to ℕ using (by omega)
  obtain ⟨k, hk1, hk2, hk3, hsp⟩ := splitter_spec input d p s
  refine ⟨splitLocals input d p (Min.min input.length s) k, ?_, ?_, ?_⟩
  · simp only [SimpleEncoder.main]
    rw [mainSplit_accepted fs fname input _ _ _ hfs hdp, hsp]
  · rw [splitLocals_length _ _ _ _ _ hk1]
    push_cast
    rfl
  · intro sh hmem
    have h := read_shard_length input d p (Min.min input.length s) k sh hk2 (by omega) hmem
    rw [h.1, h.2]
    push_cast
    exact ⟨rfl, rfl⟩

/-- C1, witness: the flags `d = 4`, `p = 2`, `s = 2` on the six bytes of
`"hello!"`. -/
theorem C1_shard_count_and_length_witness :
    ((1 : Int) ≤ 4 ∧ (0 : Int) ≤ 2 ∧ (0 : Int) < 2 ∧ (4 : Int) + 2 ≤ 256) ∧
    ∃ st : Locals,
      (SimpleEncoder.main (fun _ => some hello) ["in.txt"] 4 2 2).outcome = .ready st ∧
      (st.shards2.length : Int) = 4 + 2 ∧
      ∀ sh ∈ st.shards2, (sh.len : Int) = Min.min (hello.length : Int) 2 ∧
        ((st.heap.read sh).length : Int) = Min.min (hello.length : Int) 2 :=
  ⟨by decide, C1_shard_count_and_length (fun _ => some hello) "in.txt" hello 4 2 2 rfl
    (by decide) (by decide) (by decide) (by decide)⟩

/-- C3: for `n ≥ 1` and `s > 0`, `AllocAligned(n, s)` returns `n` views into
one fresh zero-filled backing array of `ceil(s/64)*64*n + 63` bytes; view `i`
has length `s`, capacity `ceil(s/64)*64` and offset `i*ceil(s/64)*64`; the
capacity ranges of two distinct views are disjoint and every capacity range
lies inside the backing array. -/
theorem C3_AllocAligned_views (n s : Int) (h : Heap) (hn : 1 ≤ n) (hs : 0 < s) :
    ∃ res : List Slice,
      AllocAligned n s h =
        .ok (res, h ++ [List.replicate (⌈(s : ℚ) / 64⌉ * 64 * n + 63).toNat 0]) ∧
      (res.length : Int) = n ∧
      (∀ i : Nat, (i : Int) < n → ∃ v, res[i]? = some v ∧ v.arr = some h.length ∧
        (v.len : Int) = s ∧ (v.cap : Int) = ⌈(s : ℚ) / 64⌉ * 64 ∧
        (v.off : Int) = i * (⌈(s : ℚ) / 64⌉ * 64)) ∧
      (∀ (i j : Nat) (v w : Slice), i < j → res[i]? = some v → res[j]? = some w →
        v.off + v.cap ≤ w.off) ∧
      (∀ v ∈ res, ((v.off + v.cap : Nat) : Int) ≤ ⌈(s : ℚ) / 64⌉ * 64 * n + 63) ∧
      (∀ (i j : Nat) (v w : Slice) (data : List Byte), i ≠ j → res[i]? = some v →
        res[j]? = some w → data.length ≤ v.cap →
        Heap.readCap (Heap.write
            (h ++ [List.replicate (⌈(s : ℚ) / 64⌉ * 64 * n + 63).toNat 0])
            h.length v.off data) w =
          Heap.readCap (h ++ [List.replicate (⌈(s : ℚ) / 64⌉ * 64 * n + 63).toNat 0]) w) := by
  lift n to ℕ using (by omega)
  lift s to ℕ using (by omega)
  have hget : ∀ i : Nat, i < n →
      ((List.range n).map (alignedView h.length s (aligned s)))[i]? =
        some (alignedView h.length s (aligned s) i) := by
    intro i hi
    rw [List.getElem?_map, List.getElem?_range hi]
    rfl
  have hlen : ((List.range n).map (alignedView h.length s (aligned s))).length = n := by simp
  have hN : (⌈((s : Int) : ℚ) / 64⌉ * 64 * (n : Int) + 63).toNat = aligned s * n + 63 := by
    have : ((aligned s : Nat) : Int) * (n : Int) + 63 = ((aligned s * n + 63 : Nat) : Int) := by
      push_cast; rfl
    rw [ceil_aligned, this, Int.toNat_ofNat]
  have hlookup : ∀ (i : Nat) (v : Slice),
      ((List.range n).map (alignedView h.length s (aligned s)))[i]? = some v →
        i < n ∧ v = alignedView h.length s (aligned s) i := by
    intro i v hv
    have hi : i < n := by
      by_contra hc
      rw [List.getElem?_eq_none (by rw [hlen]; omega)] at hv
      exact Option.noConfusion hv
    rw [hget i hi] at hv
    cases hv
    exact ⟨hi, rfl⟩
  refine ⟨(List.range n).map (alignedView h.length s (aligned s)), ?_, ?_, ?_, ?_, ?_, ?_⟩
  rotate_right
  · intro i j v w data hij hv hw hdata
    obtain ⟨hi, rfl⟩ := hlookup i v hv
    obtain ⟨hj, rfl⟩ := hlookup j w hw
    rw [hN]
    have h4 : aligned s * n = n * aligned s := Nat.mul_comm _ _
    have h5 := mul_succ_le i n (aligned s) hi
    simp only [alignedView] at hdata
    apply readCap_write_other h _ data _ _ rfl
    · simp only [alignedView, List.length_replicate]
      omega
    · simp only [alignedView]
      rcases Nat.lt_or_gt_of_ne hij with hlt | hgt
      · have := mul_succ_le i j (aligned s) hlt
        left; omega
      · have := mul_succ_le j i (aligned s) hgt
        right; omega
  · rw [AllocAligned_spec, hN]
  · simp
  · intro i hi
    refine ⟨_, hget i (by omega), rfl, rfl, ?_, ?_⟩
    · rw [ceil_aligned]; rfl
    · rw [ceil_aligned]
      simp only [alignedView]
      push_cast
      rfl
  · intro i j v w hij hv hw
    have hj : j < n := by
      by_contra hc
      rw [List.getElem?_eq_none (by rw [hlen]; omega)] at hw
      exact Option.noConfusion hw
    rw [hget i (by omega)] at hv
    rw [hget j hj] at hw
    cases hv
    cases hw
    simp only [alignedView]
    exact mul_succ_le i j (aligned s) hij
  · intro v hv
    simp only [List.mem_map, List.mem_range] at hv
    obtain ⟨t, ht, rfl⟩ := hv
    rw [ceil_aligned]
    have h3 := mul_succ_le t n (aligned s) ht
    have h4 : (((aligned s : Nat) : Int) * (n : Int)) = ((n * aligned s : Nat) : Int) := by
      push_cast; ring
    rw [h4]
    simp only [alignedView]
    omega

/-- C3, witness: two views of 65 bytes on an empty heap; the stride is 128 and
the backing array has 319 bytes. -/
theorem C3_AllocAligned_views_witness :
    ((1 : Int) ≤ 2 ∧ (0 : Int) < 65) ∧
    ∃ res : List Slice,
      AllocAligned 2 65 [] =
        .ok (res, [] ++ [List.replicate (⌈((65 : Int) : ℚ) / 64⌉ * 64 * 2 + 63).toNat 0]) ∧
      (res.length : Int) = 2 ∧
      (∀ i : Nat, (i : Int) < 2 → ∃ v, res[i]? = some v ∧ v.arr = some ([] : Heap).length ∧
        (v.len : Int) = 65 ∧ (v.cap : Int) = ⌈((65 : Int) : ℚ) / 64⌉ * 64 ∧
        (v.off : Int) = i * (⌈((65 : Int) : ℚ) / 64⌉ * 64)) ∧
      (∀ (i j : Nat) (v w : Slice), i < j → res[i]? = some v → res[j]? = some w →
        v.off + v.cap ≤ w.off) ∧
      (∀ v ∈ res, ((v.off + v.cap : Nat) : Int) ≤ ⌈((65 : Int) : ℚ) / 64⌉ * 64 * 2 + 63) ∧
      (∀ (i j : Nat) (v w : Slice) (data : List Byte), i ≠ j → res[i]? = some v →
        res[j]? = some w → data.length ≤ v.cap →
        Heap.readCap (Heap.write
            ([] ++ [List.replicate (⌈((65 : Int) : ℚ) / 64⌉ * 64 * 2 + 63).toNat 0])
            ([] : Heap).length v.off data) w =
          Heap.readCap ([] ++ [List.replicate (⌈((65 : Int) : ℚ) / 64⌉ * 64 * 2 + 63).toNat 0])
            w) :=
  ⟨by decide, C3_AllocAligned_views 2 65 [] (by decide) (by decide)⟩

/-- C7: the failing run. On the empty input with the default flags `d = 4`,
`p = 2`, `s = 2` the splitting code returns six shards of length 0, and the
native encoder then panics with an index out of range while it takes the
address of element 0 of a shard, before `C.encode` is called. -/
theorem C7_native_empty_input_panics :
    (∃ st : Locals, splitter [] 4 2 2 = .ok st ∧
      st.shards2.map Slice.len = [0, 0, 0, 0, 0, 0] ∧
      handOff st 4 2 = .error .indexOutOfRange) ∧
    (NativeEncoder.main (fun _ => some []) ["in.txt"] 4 2 2).outcome =
      .panicked .indexOutOfRange :=
  ⟨⟨_, rfl, rfl, rfl⟩, rfl⟩

end ReedSolomon
